import Mathlib

/-!
Verification of the xfsprogs memory-backed block storage layer: the xfile
backing-store pool (libxfs/xfile.c) and the xmbuf buffer-cache adapter
(libxfs/buf_mem.c), modelled as a shallow embedding.  Backing files are
modelled as sparse byte files with a page-granular residency map; the pool is
a list of file control blocks plus the shared fcb_list.  Machine integers are
modelled as Nat/Int with explicit reductions modulo powers of two at the
places where the C code performs implicit conversions.
-/

namespace XfsProgsModel

/-! ## Machine constants

The model fixes the usual Linux configuration: 4096-byte pages (the code
obtains this from sysconf and requires a power of two), 512-byte basic
blocks.  The errno values are the Linux ones; the embedding only relies on
their being pairwise distinct.  EFSCORRUPTED is defined to EUCLEAN (117) by
the xfsprogs platform headers.  LIBXFS_B_x are distinct bits of b_flags from
the libxfs buffer header; only their distinctness as bits matters here.
-/

def PAGE_SIZE : Nat := 4096

/-- BBSHIFT from the XFS headers: basic blocks are 512 bytes. -/
def BBSHIFT : Nat := 9

/-- BBTOB converts basic-block counts to bytes. -/
def BBTOB (bbs : Nat) : Nat := bbs <<< BBSHIFT

/-- XMBUF_BLOCKSHIFT, the page shift that xmbuf_libinit derives from the
page size (4096 gives 12). -/
def XMBUF_BLOCKSHIFT : Nat := 12

def INT_MAX : Nat := 2 ^ 31 - 1

/-- LLONG_MAX, returned by xfile_maxbytes for unbounded partitions. -/
def LLONG_MAX : Int := 2 ^ 63 - 1

/-- Modulus of the unsigned 64-bit conversion applied to a signed loff_t
difference when it is compared against a size_t on LP64. -/
def U64_MOD : Nat := 2 ^ 64

/-- Modulus of the unsigned int reference count in struct xfile_fcb. -/
def U32_MOD : Nat := 2 ^ 32

def ENOMEM : Int := 12
def E2BIG : Int := 7
def EFBIG : Int := 27
def EBADF : Int := 9
def EFSCORRUPTED : Int := 117

def LIBXFS_B_STALE : Nat := 4
def LIBXFS_B_UPTODATE : Nat := 8
def LIBXFS_B_UNCHECKED : Nat := 32

/-- roundup_64 macro: (((x)+((y)-1))/(y))*(y). -/
def roundup_64 (x y : Nat) : Nat := ((x + y - 1) / y) * y

/-! ## Sparse files and the backing-store pool

A file control block (struct xfile_fcb) owns one memfd.  The memfd is a
sparse byte file: st_size, byte content, and a page-granular residency map
recording which pages have backing store (drives SEEK_DATA/SEEK_HOLE and
st_blocks).  Bytes inside holes and beyond st_size read back as zero.
-/

structure Fcb where
  size : Nat
  data : Nat → Nat
  alloc : Nat → Bool
  refcount : Nat

/-- The global pool: every memfd ever opened, indexed by descriptor (closed
descriptors become none), plus the shared fcb_list in list order. -/
structure XfsState where
  files : List (Option Fcb)
  fcbList : List Nat

def emptyPool : XfsState := { files := [], fcbList := [] }

def getFile (s : XfsState) (fd : Nat) : Option Fcb :=
  (s.files.getD fd none)

def setFile (s : XfsState) (fd : Nat) (f : Option Fcb) : XfsState :=
  { s with files := s.files.set fd f }

/-- Which page a byte offset falls in. -/
def pageOf (i : Nat) : Nat := i / PAGE_SIZE

/-- pwrite: overwrite [pos, pos+|buf|), extend st_size if needed, and give
backing store to every page touching the written range.  memfd writes never
return short in the model, matching an unconstrained tmpfs. -/
def writeBytes (f : Fcb) (pos : Nat) (buf : List Nat) : Fcb :=
  if buf.length = 0 then f
  else
    { f with
      size := max f.size (pos + buf.length)
      data := fun i =>
        if pos ≤ i ∧ i < pos + buf.length then buf.getD (i - pos) 0 else f.data i
      alloc := fun p =>
        f.alloc p || decide (p * PAGE_SIZE < pos + buf.length ∧ pos < (p + 1) * PAGE_SIZE) }

/-- pread of count bytes at pos: transfers min(count, size - pos) bytes. -/
def readBytes (f : Fcb) (pos count : Nat) : List Nat :=
  (List.range (min count (f.size - pos))).map fun k => f.data (pos + k)

/-- ftruncate: bytes at or beyond the new size read as zero afterwards, and
pages wholly at or beyond it lose their backing store. -/
def truncateFile (f : Fcb) (n : Nat) : Fcb :=
  { f with
    size := n
    data := fun i => if i < min n f.size then f.data i else 0
    alloc := fun p => f.alloc p && decide (p * PAGE_SIZE < n) }

/-- fallocate(PUNCH_HOLE | KEEP_SIZE): the range reads back as zero, pages
wholly inside it lose their backing store, st_size is unchanged. -/
def punchHole (f : Fcb) (pos len : Nat) : Fcb :=
  { f with
    data := fun i => if pos ≤ i ∧ i < pos + len then 0 else f.data i
    alloc := fun p =>
      f.alloc p && !decide (pos ≤ p * PAGE_SIZE ∧ (p + 1) * PAGE_SIZE ≤ pos + len) }

/-! ## xfile.c: partitions over pooled memfds -/

/-- struct xfile: the fcb is referenced by descriptor index. -/
structure Xfile where
  fd : Nat
  partition_pos : Nat
  maxbytes : Nat

/-- A freshly opened memfd: empty, no resident pages, refcount 1. -/
def freshFcb : Fcb :=
  { size := 0, data := fun _ => 0, alloc := fun _ => false, refcount := 1 }

/-- xfile_fcb_create: open a fresh memfd (size 0, no resident pages) with
refcount 1; the node is self-linked, i.e. not yet on fcb_list. -/
def xfile_fcb_create (s : XfsState) : Nat × XfsState :=
  (s.files.length, { s with files := s.files ++ [some freshFcb] })

/-- The list_for_each_entry scan in xfile_fcb_find: the first fcb_list member
whose descriptor still resolves (fstat succeeds) is taken; ftruncate on a
memfd does not fail in the model. -/
def findListCandidate (s : XfsState) : Option (Nat × Fcb) :=
  s.fcbList.findSome? fun fd => (getFile s fd).map fun f => (fd, f)

structure FindResult where
  pos : Nat
  fd : Nat
  state : XfsState

/-- xfile_fcb_find: maxbytes == 0 yields a private memfd kept off fcb_list;
otherwise maxbytes is rounded up to page granularity and either an existing
pool member is extended (its partition starting at its size rounded up to a
page) with its refcount incremented, or a new memfd is created, truncated to
the rounded size, and appended to fcb_list. -/
def xfile_fcb_find (s : XfsState) (maxbytes : Nat) : FindResult :=
  if maxbytes = 0 then
    let c := xfile_fcb_create s
    { pos := 0, fd := c.1, state := c.2 }
  else
    let m := roundup_64 maxbytes PAGE_SIZE
    match findListCandidate s with
    | some (fd, f) =>
        let pos := roundup_64 f.size PAGE_SIZE
        let f1 := truncateFile f (pos + m)
        { pos := pos, fd := fd,
          state := setFile s fd (some { f1 with refcount := (f1.refcount + 1) % U32_MOD }) }
    | none =>
        let c := xfile_fcb_create s
        let s2 := setFile c.2 c.1 (some (truncateFile freshFcb m))
        { pos := 0, fd := c.1, state := { s2 with fcbList := s2.fcbList ++ [c.1] } }

structure CreateResult where
  xf : Xfile
  state : XfsState

/-- xfile_create: the partition records the exact caller-supplied maxbytes,
not the page-rounded amount used to extend the backing file. -/
def xfile_create (s : XfsState) (maxbytes : Nat) : CreateResult :=
  let r := xfile_fcb_find s maxbytes
  { xf := { fd := r.fd, partition_pos := r.pos, maxbytes := maxbytes }, state := r.state }

/-- xfile_fcb_irele: a self-linked (private) fcb is closed outright.  A
pooled fcb has its unsigned refcount decremented; at zero it is unlinked
from fcb_list and closed, otherwise, when the released partition was bounded
and ended exactly at st_size, the file is truncated back down to the start
of that partition. -/
def xfile_fcb_irele (s : XfsState) (fd pos len : Nat) : XfsState :=
  if fd ∉ s.fcbList then
    setFile s fd none
  else
    match getFile s fd with
    | none => s
    | some f =>
        let r := (f.refcount + (U32_MOD - 1)) % U32_MOD
        if r = 0 then
          { files := (setFile s fd none).files,
            fcbList := s.fcbList.filter fun x => x ≠ fd }
        else if 0 < len ∧ f.size = pos + len then
          setFile s fd (some (truncateFile { f with refcount := r } pos))
        else
          setFile s fd (some { f with refcount := r })

def xfile_destroy (s : XfsState) (xf : Xfile) : XfsState :=
  xfile_fcb_irele s xf.fd xf.partition_pos xf.maxbytes

/-- xfile_maxbytes: the declared bound, or LLONG_MAX for unbounded files. -/
def xfile_maxbytes (xf : Xfile) : Int :=
  if xf.maxbytes > 0 then (xf.maxbytes : Int) else LLONG_MAX

/-- The bound check xfile_maxbytes(xf) - pos < count as the C compiler
evaluates it on LP64: the signed 64-bit difference is converted to unsigned
64-bit before comparison with the size_t count. -/
def capacityCheckFails (xf : Xfile) (count pos : Nat) : Bool :=
  ((xfile_maxbytes xf - (pos : Int)) % (U64_MOD : Int)).toNat < count

/-- xfile_load: reads count bytes at partition offset pos, translated by
partition_pos; any limit violation or short read is reported as -ENOMEM. -/
def xfile_load (s : XfsState) (xf : Xfile) (count pos : Nat) :
    Except Int (List Nat) :=
  if count > INT_MAX then .error (-ENOMEM)
  else if capacityCheckFails xf count pos then .error (-ENOMEM)
  else
    match getFile s xf.fd with
    | none => .error (-EBADF)
    | some f =>
        let bytes := readBytes f (pos + xf.partition_pos) count
        if bytes.length ≠ count then .error (-ENOMEM) else .ok bytes

/-- xfile_store: writes buf at partition offset pos, translated by
partition_pos; an oversized count is -E2BIG, a bound violation is -EFBIG. -/
def xfile_store (s : XfsState) (xf : Xfile) (buf : List Nat) (pos : Nat) :
    Except Int XfsState :=
  if buf.length > INT_MAX then .error (-E2BIG)
  else if capacityCheckFails xf buf.length pos then .error (-EFBIG)
  else
    match getFile s xf.fd with
    | none => .error (-EBADF)
    | some f => .ok (setFile s xf.fd (some (writeBytes f (pos + xf.partition_pos) buf)))

/-- xfile_discard: fallocate(PUNCH_HOLE | KEEP_SIZE, pos, count) on the
backing descriptor.  Exactly as in the source, pos is passed through without
adding xf.partition_pos. -/
def xfile_discard (s : XfsState) (xf : Xfile) (pos count : Nat) : XfsState :=
  match getFile s xf.fd with
  | none => s
  | some f => setFile s xf.fd (some (punchHole f pos count))

/-! ## Byte accounting: SEEK_DATA / SEEK_HOLE and st_blocks -/

/-- First index in [start, start+n) satisfying pred. -/
def findPageAux (pred : Nat → Bool) (start : Nat) : Nat → Option Nat
  | 0 => none
  | n + 1 => if pred start then some start else findPageAux pred (start + 1) n

/-- Index of the page holding the last byte of a nonempty file. -/
def lastPage (f : Fcb) : Nat := (f.size - 1) / PAGE_SIZE

/-- lseek(fd, off, SEEK_DATA): off itself when it sits in a resident page
before EOF, else the start of the next resident page before EOF, else ENXIO
(modelled as none). -/
def lseekData (f : Fcb) (off : Nat) : Option Nat :=
  if f.size ≤ off then none
  else if f.alloc (pageOf off) then some off
  else
    match findPageAux f.alloc (pageOf off + 1) (lastPage f - pageOf off) with
    | some p => some (p * PAGE_SIZE)
    | none => none

/-- lseek(fd, off, SEEK_HOLE): off itself when its page is a hole, else the
start of the next hole page, else st_size (EOF is a virtual hole); ENXIO
past EOF. -/
def lseekHole (f : Fcb) (off : Nat) : Option Nat :=
  if f.size ≤ off then none
  else if !f.alloc (pageOf off) then some off
  else
    match findPageAux (fun p => !f.alloc p) (pageOf off + 1) (lastPage f - pageOf off) with
    | some p => some (p * PAGE_SIZE)
    | none => some f.size

/-- The data/hole walking loop of xfile_partition_bytes.  The fuel argument
only bounds the recursion; every call site supplies more fuel than the loop
can consume, since the data position advances on each pass.  A none data
position is the ENXIO case, where the C code falls out of the loop and
returns the bytes counted so far. -/
def partitionBytesGo (f : Fcb) (stop : Nat) : Nat → Option Nat → Nat → Nat
  | 0, _, bytes => bytes
  | _ + 1, none, bytes => bytes
  | fuel + 1, some dpos, bytes =>
      if dpos < stop then
        match lseekHole f dpos with
        | none => bytes
        | some hpos =>
            if stop ≤ hpos then bytes + (stop - dpos)
            else partitionBytesGo f stop fuel (lseekData f hpos) (bytes + (hpos - dpos))
      else bytes

/-- xfile_partition_bytes: sum the lengths of the SEEK_DATA/SEEK_HOLE data
runs intersected with the partition range.  A failed initial lseek with an
error other than ENXIO (here: a dead descriptor) returns maxbytes. -/
def xfile_partition_bytes (s : XfsState) (xf : Xfile) : Nat :=
  match getFile s xf.fd with
  | none => xf.maxbytes
  | some f =>
      let stop := xf.partition_pos + xf.maxbytes
      partitionBytesGo f stop (stop + 1) (lseekData f xf.partition_pos) 0

/-- Resident pages of the file, as st_blocks reports them (tmpfs counts one
page of backing store as PAGE_SIZE / 512 blocks of 512 bytes). -/
def countAllocPages (f : Fcb) : Nat :=
  (List.range ((f.size + PAGE_SIZE - 1) / PAGE_SIZE)).countP f.alloc

def st_blocks (f : Fcb) : Nat := countAllocPages f * (PAGE_SIZE / 512)

/-- xfile_bytes: partition walk for bounded files, st_blocks << 9 for
private unbounded files (fstat failure on a dead descriptor surfaces as the
negated errno cast to unsigned long long). -/
def xfile_bytes (s : XfsState) (xf : Xfile) : Nat :=
  if xf.maxbytes > 0 then xfile_partition_bytes s xf
  else
    match getFile s xf.fd with
    | none => (((-EBADF : Int)) % (U64_MOD : Int)).toNat
    | some f => st_blocks f <<< 9

/-! ## buf_mem.c: the xmbuf buffer-cache adapter -/

/-- struct xfs_buftarg restricted to what the adapter reads. -/
structure Buftarg where
  bt_xfile : Xfile

/-- A live mmap region: file range plus protection and sharing flags. -/
structure Mapping where
  pos : Nat
  len : Nat
  prot_read : Bool
  prot_write : Bool
  shared : Bool

/-- struct xfs_buf restricted to the fields the adapter touches.  The daddr
lives in b_cache_key (xmbuf_cache_alloc stores the same block number in
b_cache_key and b_maps[0].bm_bn, the field xfs_buf_daddr reads). -/
structure XfsBuf where
  b_cache_key : Nat
  b_length : Nat
  b_flags : Nat
  b_error : Int
  b_addr : Option Mapping
  b_target : Buftarg

def xfs_buf_daddr (bp : XfsBuf) : Nat := bp.b_cache_key

/-- struct xfs_bufkey as handed to the cache alloc callback. -/
structure Bufkey where
  blkno : Nat
  bblen : Nat
  buftarg : Buftarg

/-- xmbuf_map_page: mmap BBTOB(b_length) bytes read/write shared at file
offset partition_pos + BBTOB(daddr).  Whether the kernel grants the mapping
is an input of the model (the mmapOk oracle); failure surfaces as a negated
errno, success records the mapping and sets UPTODATE | UNCHECKED. -/
def xmbuf_map_page (mmapOk : Bool) (bp : XfsBuf) : Except Int XfsBuf :=
  let xfile := bp.b_target.bt_xfile
  let pos := xfile.partition_pos + BBTOB (xfs_buf_daddr bp)
  if mmapOk then
    .ok { bp with
          b_addr := some { pos := pos, len := BBTOB bp.b_length,
                           prot_read := true, prot_write := true, shared := true }
          b_flags := bp.b_flags ||| (LIBXFS_B_UPTODATE ||| LIBXFS_B_UNCHECKED)
          b_error := 0 }
  else
    .error (-ENOMEM)

/-- xmbuf_cache_alloc: zero-allocate the buffer, fill in the key fields, and
map its page immediately; a mapping failure frees the buffer and the
callback returns NULL (none). -/
def xmbuf_cache_alloc (key : Bufkey) (mmapOk : Bool) : Option XfsBuf :=
  let bp : XfsBuf :=
    { b_cache_key := key.blkno, b_length := key.bblen, b_flags := 0,
      b_error := 0, b_addr := none, b_target := key.buftarg }
  match xmbuf_map_page mmapOk bp with
  | .error _ => none
  | .ok bp2 => some bp2

/-- xmbuf_verify_daddr: daddr < (xf->maxbytes >> BBSHIFT). -/
def xmbuf_verify_daddr (btp : Buftarg) (daddr : Nat) : Bool :=
  daddr < btp.bt_xfile.maxbytes >>> BBSHIFT

/-- xmbuf_stale: punch a hole over the buffer backing range, translated by
partition_pos, keeping the file size. -/
def xmbuf_stale (s : XfsState) (bp : XfsBuf) : XfsState :=
  let xf := bp.b_target.bt_xfile
  let pos := BBTOB (xfs_buf_daddr bp) + xf.partition_pos
  match getFile s xf.fd with
  | none => s
  | some f => setFile s xf.fd (some (punchHole f pos (BBTOB bp.b_length)))

/-- The directly mapped content of a buffer: the bytes of the backing file
under its mapping. -/
def bufContent (s : XfsState) (bp : XfsBuf) : Nat → Nat :=
  let xf := bp.b_target.bt_xfile
  fun k =>
    match getFile s xf.fd with
    | none => 0
    | some f => f.data (xf.partition_pos + BBTOB (xfs_buf_daddr bp) + k)

structure FinalizeResult where
  error : Int
  state : XfsState
  reported : Option Nat

/-- xmbuf_finalize: a stale buffer is discarded by xmbuf_stale and the call
succeeds; otherwise the block-type verify_struct hook runs over the mapped
content, and a failure address makes the call return -EFSCORRUPTED and
report that address through xfs_verifier_error.  The verifier hook
(bp->b_ops->verify_struct) is passed explicitly, since b_ops is installed by
the generic read path outside this layer. -/
def xmbuf_finalize (verify : (Nat → Nat) → Option Nat) (s : XfsState)
    (bp : XfsBuf) : FinalizeResult :=
  if bp.b_flags &&& LIBXFS_B_STALE ≠ 0 then
    { error := 0, state := xmbuf_stale s bp, reported := none }
  else
    match verify (bufContent s bp) with
    | some fa => { error := -EFSCORRUPTED, state := s, reported := some fa }
    | none => { error := 0, state := s, reported := none }

/-! ## Generic helpers -/

theorem listGetD_set_self {α : Type} (l : List α) (n : Nat) (v d : α)
    (h : n < l.length) : (l.set n v).getD n d = v := by
  induction l generalizing n with
  | nil => simp at h
  | cons a t ih =>
      cases n with
      | zero => rfl
      | succ m => exact ih m (by simpa using h)

theorem listGetD_set_ne {α : Type} (l : List α) (m n : Nat) (v d : α)
    (h : m ≠ n) : (l.set n v).getD m d = l.getD m d := by
  induction l generalizing m n with
  | nil => rfl
  | cons a t ih =>
      cases n with
      | zero =>
          cases m with
          | zero => exact absurd rfl h
          | succ k => rfl
      | succ n2 =>
          cases m with
          | zero => rfl
          | succ k => exact ih k n2 (by omega)

theorem listGetD_ne_default_lt {α : Type} (l : List α) (n : Nat) (d : α)
    (h : l.getD n d ≠ d) : n < l.length := by
  induction l generalizing n with
  | nil => simp [List.getD] at h
  | cons a t ih =>
      cases n with
      | zero => simp
      | succ m => simpa using Nat.succ_lt_succ (ih m (by simpa using h))

theorem getFile_some_lt (s : XfsState) (fd : Nat) (f : Fcb)
    (h : getFile s fd = some f) : fd < s.files.length :=
  listGetD_ne_default_lt s.files fd none (by simp [getFile] at h ⊢; simp [h])

theorem getFile_setFile_self (s : XfsState) (fd : Nat) (v : Option Fcb)
    (h : fd < s.files.length) : getFile (setFile s fd v) fd = v := by
  simpa [getFile, setFile] using listGetD_set_self s.files fd v none h

theorem getFile_setFile_ne (s : XfsState) (fd fd2 : Nat) (v : Option Fcb)
    (h : fd2 ≠ fd) : getFile (setFile s fd v) fd2 = getFile s fd2 := by
  simpa [getFile, setFile] using listGetD_set_ne s.files fd2 fd v none h

theorem readBytes_writeBytes (f : Fcb) (p : Nat) (buf : List Nat) :
    readBytes (writeBytes f p buf) p buf.length = buf := by
  rcases buf with _ | ⟨b, rest⟩
  · simp [readBytes, writeBytes]
  · set buf : List Nat := b :: rest with hbuf
    have hlen : buf.length ≠ 0 := by simp [hbuf]
    have hsize : (writeBytes f p buf).size = max f.size (p + buf.length) := by
      simp [writeBytes, hlen]
    have hmin : min buf.length ((writeBytes f p buf).size - p) = buf.length := by
      rw [hsize]; omega
    apply List.ext_getElem
    · simp [readBytes, hmin]
    · intro i h1 h2
      have hi : i < buf.length := by simpa [readBytes, hmin] using h2
      simp only [readBytes, hmin, List.getElem_map, List.getElem_range]
      have : p ≤ p + i ∧ p + i < p + buf.length := by omega
      simp [writeBytes, hlen, this]
      simp [List.getElem?_eq_getElem hi]

/-! ## Claim C2: xmbuf_verify_daddr bound -/

/-- C2, counterexample: the claim predicts that the address
maxbytes >> page_shift (one past the last valid block under the claimed
bound) is rejected, but for a buffer target with maxbytes = 4096 the code
accepts it, because the comparison shifts by BBSHIFT = 9, not by the page
shift. -/
theorem c2_counterexample :
    xmbuf_verify_daddr
      { bt_xfile := { fd := 0, partition_pos := 0, maxbytes := 4096 } }
      (4096 >>> XMBUF_BLOCKSHIFT) = true := by decide

/-- C2, amended: xmbuf_verify_daddr accepts exactly the daddr values below
maxbytes shifted right by BBSHIFT (9, 512-byte basic blocks), and rejects
maxbytes >> BBSHIFT, one past the last valid address. -/
theorem c2_verify_daddr_bbshift :
    ∀ (btp : Buftarg) (daddr : Nat),
      (xmbuf_verify_daddr btp daddr = true ↔
        daddr < btp.bt_xfile.maxbytes >>> BBSHIFT) ∧
      xmbuf_verify_daddr btp (btp.bt_xfile.maxbytes >>> BBSHIFT) = false := by
  intro btp daddr
  constructor
  · simp [xmbuf_verify_daddr]
  · simp [xmbuf_verify_daddr]

/-! ## Claim C8: construction maps immediately or fails wholesale -/

/-- C8: a buffer returned by the cache alloc callback always carries a live
read/write shared mapping of exactly its backing range (mapping happens
during construction, not lazily), and when the mapping attempt fails the
callback returns none, so no unmapped-but-valid buffer is ever produced. -/
theorem c8_construct_mapped :
    (∀ (key : Bufkey) (mmapOk : Bool) (bp : XfsBuf),
        xmbuf_cache_alloc key mmapOk = some bp →
        ∃ m, bp.b_addr = some m ∧ m.prot_read = true ∧ m.prot_write = true ∧
          m.shared = true ∧
          m.pos = key.buftarg.bt_xfile.partition_pos + BBTOB key.blkno ∧
          m.len = BBTOB key.bblen) ∧
    (∀ key : Bufkey, xmbuf_cache_alloc key false = none) := by
  constructor
  · intro key mmapOk bp h
    cases mmapOk with
    | false => simp [xmbuf_cache_alloc, xmbuf_map_page] at h
    | true =>
        simp only [xmbuf_cache_alloc, xmbuf_map_page, if_true] at h
        cases h
        exact ⟨_, rfl, rfl, rfl, rfl, rfl, rfl⟩
  · intro key
    simp [xmbuf_cache_alloc, xmbuf_map_page]

def c8key : Bufkey :=
  { blkno := 2, bblen := 8,
    buftarg := { bt_xfile := { fd := 0, partition_pos := 4096, maxbytes := 8192 } } }

def c8bpDefault : XfsBuf :=
  { b_cache_key := 0, b_length := 0, b_flags := 0, b_error := 0, b_addr := none,
    b_target := { bt_xfile := { fd := 0, partition_pos := 0, maxbytes := 0 } } }

def c8bp : XfsBuf := (xmbuf_cache_alloc c8key true).getD c8bpDefault

theorem c8_construct_mapped_witness :
    xmbuf_cache_alloc c8key true = some c8bp ∧
    ∃ m, c8bp.b_addr = some m ∧ m.prot_read = true ∧ m.prot_write = true ∧
      m.shared = true ∧
      m.pos = c8key.buftarg.bt_xfile.partition_pos + BBTOB c8key.blkno ∧
      m.len = BBTOB c8key.bblen :=
  ⟨rfl, c8_construct_mapped.1 c8key true c8bp rfl⟩

/-! ## Claim C4: store followed by load round-trips -/

/-- C4: within a partition, a successful store of buf at pos followed by a
load of the same range returns exactly buf. -/
theorem c4_store_load_roundtrip :
    ∀ (s s2 : XfsState) (xf : Xfile) (buf : List Nat) (pos : Nat),
      pos + buf.length ≤ xf.maxbytes →
      xfile_store s xf buf pos = .ok s2 →
      xfile_load s2 xf buf.length pos = .ok buf := by
  intro s s2 xf buf pos hrange hstore
  unfold xfile_store at hstore
  by_cases h1 : buf.length > INT_MAX
  · simp [h1] at hstore
  by_cases h2 : capacityCheckFails xf buf.length pos = true
  · simp [h1, h2] at hstore
  cases hgf : getFile s xf.fd with
  | none => simp [h1, h2, hgf] at hstore
  | some f =>
      simp only [h1, if_false, hgf] at hstore
      rw [if_neg h2] at hstore
      cases hstore
      have hlt := getFile_some_lt s xf.fd f hgf
      have hget2 : getFile (setFile s xf.fd
          (some (writeBytes f (pos + xf.partition_pos) buf))) xf.fd =
          some (writeBytes f (pos + xf.partition_pos) buf) :=
        getFile_setFile_self s xf.fd _ hlt
      unfold xfile_load
      rw [if_neg h1, if_neg h2, hget2]
      simp [readBytes_writeBytes]

def c4r : CreateResult := xfile_create emptyPool 4096

def c4s2 : XfsState :=
  (xfile_store c4r.state c4r.xf [3, 1, 4] 5).toOption.getD c4r.state

theorem c4_store_load_roundtrip_witness :
    5 + 3 ≤ c4r.xf.maxbytes ∧
    xfile_store c4r.state c4r.xf [3, 1, 4] 5 = .ok c4s2 ∧
    xfile_load c4s2 c4r.xf 3 5 = .ok [3, 1, 4] :=
  ⟨by decide, rfl,
   c4_store_load_roundtrip c4r.state c4s2 c4r.xf [3, 1, 4] 5 (by decide) rfl⟩

/-! ## Claim C3: limit violations and their error codes -/

theorem capacityCheckFails_of_over (xf : Xfile) (count pos : Nat)
    (hb : 0 < xf.maxbytes) (hw : xf.maxbytes < 2 ^ 63)
    (hpos : pos ≤ xf.maxbytes) (hover : xf.maxbytes < pos + count) :
    capacityCheckFails xf count pos = true := by
  unfold capacityCheckFails xfile_maxbytes
  rw [if_pos hb]
  have h0 : (0 : Int) ≤ (xf.maxbytes : Int) - (pos : Int) := by
    have : (pos : Int) ≤ (xf.maxbytes : Int) := by exact_mod_cast hpos
    omega
  have hlt : (xf.maxbytes : Int) - (pos : Int) < (U64_MOD : Int) := by
    have : (xf.maxbytes : Int) < ((2 : Int) ^ 63) := by exact_mod_cast hw
    have h64 : (U64_MOD : Int) = 2 ^ 64 := by norm_num [U64_MOD]
    omega
  rw [Int.emod_eq_of_lt h0 hlt]
  simp only [decide_eq_true_eq]
  omega

/-- C3, counterexample: the same over-capacity request is rejected with
ENOMEM by load but EFBIG (not the memory-allocation error) by store, and an
over-capacity request whose position itself exceeds the bound is not
rejected at all (the signed difference wraps when converted to unsigned for
the comparison), so the three conditions are not one identical error. -/
theorem c3_counterexample :
    xfile_load c4r.state c4r.xf 2 4095 = .error (-ENOMEM) ∧
    xfile_store c4r.state c4r.xf [1, 2] 4095 = .error (-EFBIG) ∧
    (-EFBIG : Int) ≠ (-ENOMEM : Int) ∧
    (∃ s2, xfile_store c4r.state c4r.xf [9] 4097 = .ok s2) :=
  ⟨rfl, rfl, by decide, ⟨_, rfl⟩⟩

/-- C3, amended: limit violations are rejected with no write performed, but
the error codes differ between load and store: load reports -ENOMEM for an
over-capacity range (at a position within the bound), for an oversized
count, and for a short transfer, while store reports -EFBIG for an
over-capacity range and -E2BIG for an oversized count.  An error return is
the only outcome of these calls, so no state change occurs. -/
theorem c3_capacity_errors :
    ∀ (s : XfsState) (xf : Xfile) (buf : List Nat) (count pos : Nat),
      (0 < xf.maxbytes → xf.maxbytes < 2 ^ 63 → pos ≤ xf.maxbytes →
        xf.maxbytes < pos + count → count ≤ INT_MAX →
        xfile_load s xf count pos = .error (-ENOMEM)) ∧
      (0 < xf.maxbytes → xf.maxbytes < 2 ^ 63 → pos ≤ xf.maxbytes →
        xf.maxbytes < pos + buf.length → buf.length ≤ INT_MAX →
        xfile_store s xf buf pos = .error (-EFBIG)) ∧
      (INT_MAX < count → xfile_load s xf count pos = .error (-ENOMEM)) ∧
      (INT_MAX < buf.length → xfile_store s xf buf pos = .error (-E2BIG)) ∧
      (∀ f, getFile s xf.fd = some f → count ≤ INT_MAX →
        capacityCheckFails xf count pos = false → 0 < count →
        f.size < pos + xf.partition_pos + count →
        xfile_load s xf count pos = .error (-ENOMEM)) := by
  intro s xf buf count pos
  refine ⟨?_, ?_, ?_, ?_, ?_⟩
  · intro hb hw hpos hover hcnt
    unfold xfile_load
    rw [if_neg (by omega), if_pos (capacityCheckFails_of_over xf count pos hb hw hpos hover)]
  · intro hb hw hpos hover hcnt
    unfold xfile_store
    rw [if_neg (by omega),
      if_pos (capacityCheckFails_of_over xf buf.length pos hb hw hpos hover)]
  · intro hcnt
    unfold xfile_load
    rw [if_pos (by omega)]
  · intro hcnt
    unfold xfile_store
    rw [if_pos (by omega)]
  · intro f hget hcnt hcap hc0 hshort
    unfold xfile_load
    have hne : (readBytes f (pos + xf.partition_pos) count).length ≠ count := by
      simp only [readBytes, List.length_map, List.length_range]
      omega
    simp [hget, hcap, hne, (by omega : ¬ count > INT_MAX)]

theorem c3_capacity_errors_witness :
    0 < c4r.xf.maxbytes ∧ c4r.xf.maxbytes < 2 ^ 63 ∧
    4090 ≤ c4r.xf.maxbytes ∧ c4r.xf.maxbytes < 4090 + 10 ∧ 10 ≤ INT_MAX ∧
    xfile_load c4r.state c4r.xf 10 4090 = .error (-ENOMEM) ∧
    xfile_store c4r.state c4r.xf (List.replicate 10 1) 4090 = .error (-EFBIG) :=
  ⟨by decide, by decide, by decide, by decide, by decide,
   (c3_capacity_errors c4r.state c4r.xf (List.replicate 10 1) 10 4090).1
     (by decide) (by decide) (by decide) (by decide) (by decide),
   (c3_capacity_errors c4r.state c4r.xf (List.replicate 10 1) 10 4090).2.1
     (by decide) (by decide) (by decide) (by decide) (by decide)⟩

/-! ## Claim C1: discard does not translate by the partition start -/

def c1rA : CreateResult := xfile_create emptyPool 4096

def c1rB : CreateResult := xfile_create c1rA.state 4096

def c1s3 : XfsState :=
  (xfile_store c1rB.state c1rA.xf [170] 0).toOption.getD c1rB.state

def c1s4 : XfsState := xfile_discard c1s3 c1rB.xf 0 4096

/-- C1, failing input evaluated: partitions A (start 0) and B (start 4096)
share backing descriptor 0; A stores byte 170 at its offset 0; B then
discards its own range [0, 4096).  Because xfile_discard does not add
partition_pos, the hole lands on the absolute range [0, 4096), which is A
territory, and a later load from A observes 0 instead of 170. -/
theorem c1_discard_untranslated_eval :
    c1rA.xf.fd = c1rB.xf.fd ∧
    c1rA.xf.partition_pos = 0 ∧ c1rB.xf.partition_pos = 4096 ∧
    xfile_store c1rB.state c1rA.xf [170] 0 = .ok c1s3 ∧
    xfile_load c1s3 c1rA.xf 1 0 = .ok [170] ∧
    xfile_load c1s4 c1rA.xf 1 0 = .ok [0] :=
  ⟨rfl, rfl, rfl, rfl, rfl, rfl⟩

/-! ## Claim C10: the exact bound, the rounded file size, and the slack -/

def c10r : CreateResult := xfile_create emptyPool 4000

def c10s2 : XfsState :=
  (xfile_store c10r.state c10r.xf [55] 4001).toOption.getD c10r.state

/-- C10, failing input evaluated: a partition created with maxbytes 4000
records exactly 4000 while its backing file is extended to the page-rounded
4096; a two-byte store at 3999 is rejected as the claim says, but a store at
position 4001 — also past the exact bound, into the rounding slack — is
accepted and the slack byte reads back, because the bound comparison
converts the negative signed difference to unsigned. -/
theorem c10_slack_reachable_eval :
    c10r.xf.maxbytes = 4000 ∧
    (∃ f, getFile c10r.state c10r.xf.fd = some f ∧ f.size = 4096) ∧
    xfile_store c10r.state c10r.xf [55, 56] 3999 = .error (-EFBIG) ∧
    xfile_store c10r.state c10r.xf [55] 4001 = .ok c10s2 ∧
    xfile_load c10s2 c10r.xf 1 4001 = .ok [55] :=
  ⟨rfl, ⟨_, rfl, rfl⟩, rfl, rfl, rfl⟩

/-! ## Claim C7: finalize discards stale buffers or verifies content -/

/-- C7: for a stale buffer, finalize punches a hole over exactly the buffer
backing range (translated by the partition start), leaves the file size
untouched, succeeds, and never consults the verifier (the result is the
same for every verifier); for a non-stale buffer it runs the structural
verifier over the mapped content, succeeding without any state change when
the verifier passes and returning -EFSCORRUPTED with the reported failure
address when it does not. -/
theorem c7_finalize_spec :
    (∀ (verify : (Nat → Nat) → Option Nat) (s : XfsState) (bp : XfsBuf) (f : Fcb),
        bp.b_flags &&& LIBXFS_B_STALE ≠ 0 →
        getFile s bp.b_target.bt_xfile.fd = some f →
        (xmbuf_finalize verify s bp).error = 0 ∧
        (xmbuf_finalize verify s bp).reported = none ∧
        (∃ g, getFile (xmbuf_finalize verify s bp).state bp.b_target.bt_xfile.fd =
            some g ∧
          g.size = f.size ∧
          (∀ i, BBTOB (xfs_buf_daddr bp) + bp.b_target.bt_xfile.partition_pos ≤ i →
            i < BBTOB (xfs_buf_daddr bp) + bp.b_target.bt_xfile.partition_pos +
              BBTOB bp.b_length → g.data i = 0) ∧
          (∀ i, i < BBTOB (xfs_buf_daddr bp) + bp.b_target.bt_xfile.partition_pos ∨
            BBTOB (xfs_buf_daddr bp) + bp.b_target.bt_xfile.partition_pos +
              BBTOB bp.b_length ≤ i → g.data i = f.data i))) ∧
    (∀ (verify : (Nat → Nat) → Option Nat) (s : XfsState) (bp : XfsBuf),
        bp.b_flags &&& LIBXFS_B_STALE = 0 → verify (bufContent s bp) = none →
        xmbuf_finalize verify s bp = { error := 0, state := s, reported := none }) ∧
    (∀ (verify : (Nat → Nat) → Option Nat) (s : XfsState) (bp : XfsBuf) (fa : Nat),
        bp.b_flags &&& LIBXFS_B_STALE = 0 → verify (bufContent s bp) = some fa →
        xmbuf_finalize verify s bp =
          { error := -EFSCORRUPTED, state := s, reported := some fa }) := by
  refine ⟨?_, ?_, ?_⟩
  · intro verify s bp f hstale hget
    have hres : xmbuf_finalize verify s bp =
        { error := 0, state := xmbuf_stale s bp, reported := none } := by
      unfold xmbuf_finalize
      rw [if_pos hstale]
    refine ⟨by rw [hres], by rw [hres], ?_⟩
    rw [hres]
    have hlt := getFile_some_lt s bp.b_target.bt_xfile.fd f hget
    refine ⟨punchHole f
        (BBTOB (xfs_buf_daddr bp) + bp.b_target.bt_xfile.partition_pos)
        (BBTOB bp.b_length), ?_, rfl, ?_, ?_⟩
    · show getFile (xmbuf_stale s bp) bp.b_target.bt_xfile.fd = _
      simp only [xmbuf_stale, hget]
      exact getFile_setFile_self s bp.b_target.bt_xfile.fd _ hlt
    · intro i hlo hhi
      simp only [punchHole]
      rw [if_pos ⟨hlo, hhi⟩]
    · intro i hout
      simp only [punchHole]
      rw [if_neg (by omega)]
  · intro verify s bp hflags hv
    unfold xmbuf_finalize
    rw [if_neg (by simp [hflags]), hv]
  · intro verify s bp fa hflags hv
    unfold xmbuf_finalize
    rw [if_neg (by simp [hflags]), hv]

def c7f : Fcb :=
  { size := 8192, data := fun _ => 7, alloc := fun _ => true, refcount := 2 }

def c7s : XfsState := { files := [some c7f], fcbList := [0] }

def c7bp : XfsBuf :=
  { b_cache_key := 2, b_length := 8, b_flags := LIBXFS_B_STALE, b_error := 0,
    b_addr := none,
    b_target := { bt_xfile := { fd := 0, partition_pos := 4096, maxbytes := 4096 } } }

theorem c7_finalize_spec_witness :
    (xmbuf_finalize (fun _ => some 3) c7s c7bp).error = 0 ∧
    (xmbuf_finalize (fun _ => some 3) c7s c7bp).reported = none ∧
    (xmbuf_finalize (fun _ => none) c7s
      { c7bp with b_flags := 0 } : FinalizeResult).error = 0 :=
  ⟨(c7_finalize_spec.1 (fun _ => some 3) c7s c7bp c7f (by decide) rfl).1,
   (c7_finalize_spec.1 (fun _ => some 3) c7s c7bp c7f (by decide) rfl).2.1,
   by rw [c7_finalize_spec.2.1 (fun _ => none) c7s { c7bp with b_flags := 0 }
     (by decide) rfl]⟩

/-! ## Claim C5: reference counting on a shared backing file -/

/-- Release the same descriptor repeatedly, each time with the partition
start and length the releasing partition would pass. -/
def runReleases (s : XfsState) (fd : Nat) : List (Nat × Nat) → XfsState
  | [] => s
  | (pos, len) :: rest => runReleases (xfile_fcb_irele s fd pos len) fd rest

theorem irele_shared_step (s : XfsState) (fd p l : Nat) (f : Fcb)
    (hmem : fd ∈ s.fcbList) (hget : getFile s fd = some f)
    (h1 : 1 ≤ f.refcount) (h2 : f.refcount < U32_MOD) :
    (f.refcount = 1 →
      getFile (xfile_fcb_irele s fd p l) fd = none ∧
      fd ∉ (xfile_fcb_irele s fd p l).fcbList) ∧
    (1 < f.refcount →
      ∃ g, xfile_fcb_irele s fd p l = setFile s fd (some g) ∧
        g.refcount = f.refcount - 1) := by
  have hlt := getFile_some_lt s fd f hget
  have hr : (f.refcount + (U32_MOD - 1)) % U32_MOD = f.refcount - 1 := by
    simp only [U32_MOD] at h2 ⊢
    omega
  constructor
  · intro hone
    have hr0 : (f.refcount + (U32_MOD - 1)) % U32_MOD = 0 := by rw [hr, hone]
    have hstate : xfile_fcb_irele s fd p l =
        { files := (setFile s fd none).files,
          fcbList := s.fcbList.filter fun x => x ≠ fd } := by
      unfold xfile_fcb_irele
      rw [if_neg (by simp [hmem]), hget]
      simp [hr0]
    rw [hstate]
    constructor
    · simpa [getFile, setFile] using listGetD_set_self s.files fd none none hlt
    · simp
  · intro hmore
    unfold xfile_fcb_irele
    rw [if_neg (by simp [hmem]), hget]
    simp only [hr]
    rw [if_neg (by omega)]
    by_cases htr : 0 < l ∧ f.size = p + l
    · rw [if_pos htr]
      exact ⟨_, rfl, rfl⟩
    · rw [if_neg htr]
      exact ⟨_, rfl, rfl⟩

theorem runReleases_destroys (rels : List (Nat × Nat)) :
    ∀ (s : XfsState) (fd : Nat) (f : Fcb),
      getFile s fd = some f → fd ∈ s.fcbList →
      f.refcount = rels.length → 0 < rels.length → rels.length < U32_MOD →
      (getFile (runReleases s fd rels) fd = none ∧
        fd ∉ (runReleases s fd rels).fcbList) ∧
      (∀ k, k < rels.length →
        ∃ g, getFile (runReleases s fd (rels.take k)) fd = some g ∧
          g.refcount = rels.length - k ∧
          fd ∈ (runReleases s fd (rels.take k)).fcbList) := by
  induction rels with
  | nil =>
      intro s fd f hget hmem hcnt hpos hlt
      exact absurd hpos (by simp)
  | cons pl rest ih =>
      intro s fd f hget hmem hcnt hpos hlt
      obtain ⟨p, l⟩ := pl
      have hL : ((p, l) :: rest).length = rest.length + 1 := by simp
      have hstep := irele_shared_step s fd p l f hmem hget (by omega) (by omega)
      by_cases hone : f.refcount = 1
      · -- refcount 1: this release destroys; rest must be empty
        have hrest : rest = [] := by
          cases rest with
          | nil => rfl
          | cons q t => exfalso; simp at hcnt; omega
        subst hrest
        have hdes := hstep.1 hone
        refine ⟨by simpa [runReleases] using hdes, ?_⟩
        intro k hk
        have hk0 : k = 0 := by simp at hk; omega
        subst hk0
        exact ⟨f, by simpa [runReleases] using hget, by simpa using hone,
          by simpa [runReleases] using hmem⟩
      · -- refcount still positive after this release
        have hmore : 1 < f.refcount := by omega
        obtain ⟨g, hseq, hgcnt⟩ := hstep.2 hmore
        have hget2 : getFile (xfile_fcb_irele s fd p l) fd = some g := by
          rw [hseq]
          exact getFile_setFile_self s fd _ (getFile_some_lt s fd f hget)
        have hmem2 : fd ∈ (xfile_fcb_irele s fd p l).fcbList := by
          rw [hseq]; simpa [setFile] using hmem
        have hrec := ih (xfile_fcb_irele s fd p l) fd g hget2 hmem2
          (by omega) (by omega) (by omega)
        refine ⟨by simpa [runReleases] using hrec.1, ?_⟩
        intro k hk
        cases k with
        | zero =>
            exact ⟨f, by simpa [runReleases] using hget, by simpa using hcnt,
              by simpa [runReleases] using hmem⟩
        | succ k2 =>
            have hk2 : k2 < rest.length := by simp at hk; omega
            obtain ⟨g2, hg2, hc2, hm2⟩ := hrec.2 k2 hk2
            exact ⟨g2, by simpa [runReleases] using hg2,
              by simp at hc2 ⊢; omega,
              by simpa [runReleases] using hm2⟩

/-- C5: acquiring a bounded partition from the pool head increments its
unsigned reference count by one; and from a shared backing file with
reference count n = number of releases, the file survives every proper
prefix of the release sequence (still present, still pooled, count n - k
after k releases) and is gone from both the descriptor table and the pool
list exactly after the n-th release. -/
theorem c5_refcount_correct :
    (∀ (s : XfsState) (fd : Nat) (f : Fcb) (m : Nat),
      0 < m → s.fcbList.head? = some fd → getFile s fd = some f →
      (xfile_fcb_find s m).fd = fd ∧
      ∃ g, getFile (xfile_fcb_find s m).state fd = some g ∧
        g.refcount = (f.refcount + 1) % U32_MOD) ∧
    (∀ (rels : List (Nat × Nat)) (s : XfsState) (fd : Nat) (f : Fcb),
      getFile s fd = some f → fd ∈ s.fcbList →
      f.refcount = rels.length → 0 < rels.length → rels.length < U32_MOD →
      (getFile (runReleases s fd rels) fd = none ∧
        fd ∉ (runReleases s fd rels).fcbList) ∧
      (∀ k, k < rels.length →
        ∃ g, getFile (runReleases s fd (rels.take k)) fd = some g ∧
          g.refcount = rels.length - k ∧
          fd ∈ (runReleases s fd (rels.take k)).fcbList)) := by
  constructor
  · intro s fd f m hm hhd hget
    cases hlist : s.fcbList with
    | nil => rw [hlist] at hhd; simp at hhd
    | cons a t =>
        rw [hlist] at hhd
        have ha : a = fd := by simpa using hhd
        rw [ha] at hlist
        have hcand : findListCandidate s = some (fd, f) := by
          unfold findListCandidate
          rw [hlist]
          simp [hget]
        unfold xfile_fcb_find
        rw [if_neg (by omega), hcand]
        refine ⟨rfl, ?_⟩
        exact ⟨_, getFile_setFile_self s fd _ (getFile_some_lt s fd f hget), rfl⟩
  · intro rels
    exact runReleases_destroys rels

def c5f : Fcb :=
  { size := 8192, data := fun _ => 0, alloc := fun _ => false, refcount := 3 }

def c5s : XfsState := { files := [some c5f], fcbList := [0] }

def c5rels : List (Nat × Nat) := [(0, 0), (4096, 4096), (0, 4096)]

theorem c5_refcount_correct_witness :
    ((xfile_fcb_find c5s 100).fd = 0 ∧
      ∃ g, getFile (xfile_fcb_find c5s 100).state 0 = some g ∧
        g.refcount = (c5f.refcount + 1) % U32_MOD) ∧
    (getFile (runReleases c5s 0 c5rels) 0 = none ∧
      0 ∉ (runReleases c5s 0 c5rels).fcbList) ∧
    (∃ g, getFile (runReleases c5s 0 (c5rels.take 2)) 0 = some g ∧
      g.refcount = c5rels.length - 2 ∧
      0 ∈ (runReleases c5s 0 (c5rels.take 2)).fcbList) :=
  ⟨c5_refcount_correct.1 c5s 0 c5f 100 (by decide) rfl rfl,
   (c5_refcount_correct.2 c5rels c5s 0 c5f rfl (by decide) rfl (by decide)
     (by decide)).1,
   (c5_refcount_correct.2 c5rels c5s 0 c5f rfl (by decide) rfl (by decide)
     (by decide)).2 2 (by decide)⟩

/-! ## Claim C6: unbounded partitions own their backing file exclusively -/

/-- The pool-level operations other clients can perform during the lifetime
of a partition. -/
inductive PoolOp where
  | create (maxbytes : Nat)
  | destroy (xf : Xfile)

def runOp (s : XfsState) : PoolOp → XfsState
  | .create m => (xfile_create s m).state
  | .destroy xf => xfile_destroy s xf

def runOps (s : XfsState) : List PoolOp → XfsState
  | [] => s
  | op :: rest => runOps (runOp s op) rest

theorem findListCandidate_spec (s : XfsState) (fd : Nat) (f : Fcb)
    (h : findListCandidate s = some (fd, f)) :
    fd ∈ s.fcbList ∧ getFile s fd = some f := by
  unfold findListCandidate at h
  have aux : ∀ (l : List Nat),
      (l.findSome? fun x => (getFile s x).map fun g => (x, g)) = some (fd, f) →
      fd ∈ l ∧ getFile s fd = some f := by
    intro l
    induction l with
    | nil => intro hh; simp at hh
    | cons a t ih =>
        intro hh
        rw [List.findSome?_cons] at hh
        cases hga : getFile s a with
        | none => rw [hga] at hh; simp at hh; exact ⟨by simp [(ih hh).1], (ih hh).2⟩
        | some fa =>
            rw [hga] at hh
            simp at hh
            obtain ⟨h1, h2⟩ := hh
            subst h1
            subst h2
            exact ⟨by simp, hga⟩
  exact aux s.fcbList h

theorem listGetD_append_lt {α : Type} (l : List α) (x d : α) (n : Nat)
    (h : n < l.length) : (l ++ [x]).getD n d = l.getD n d := by
  induction l generalizing n with
  | nil => simp at h
  | cons a t ih =>
      cases n with
      | zero => rfl
      | succ m => exact ih m (by simpa using h)

theorem listGetD_append_self {α : Type} (l : List α) (x d : α) :
    (l ++ [x]).getD l.length d = x := by
  induction l with
  | nil => rfl
  | cons a t ih => simp [ih]

/-- xfile_fcb_find with maxbytes 0 just opens a private memfd. -/
theorem xfile_fcb_find_zero (s : XfsState) :
    xfile_fcb_find s 0 =
      { pos := 0, fd := s.files.length,
        state := { s with files := s.files ++ [some freshFcb] } } := rfl

/-- xfile_fcb_find on a nonzero bound with an available pool member extends
that member and bumps its refcount. -/
theorem xfile_fcb_find_cand (s : XfsState) (m fd2 : Nat) (f2 : Fcb)
    (hm : ¬ m = 0) (hcand : findListCandidate s = some (fd2, f2)) :
    xfile_fcb_find s m =
      { pos := roundup_64 f2.size PAGE_SIZE, fd := fd2,
        state := setFile s fd2 (some
          { truncateFile f2
              (roundup_64 f2.size PAGE_SIZE + roundup_64 m PAGE_SIZE) with
            refcount := (f2.refcount + 1) % U32_MOD }) } := by
  unfold xfile_fcb_find
  rw [if_neg hm, hcand]
  rfl

/-- xfile_fcb_find on a nonzero bound with no available pool member creates
a memfd, truncates it to the rounded bound, and appends it to the list. -/
theorem xfile_fcb_find_no_cand (s : XfsState) (m : Nat)
    (hm : ¬ m = 0) (hcand : findListCandidate s = none) :
    xfile_fcb_find s m =
      { pos := 0, fd := s.files.length,
        state :=
          { files :=
              List.set (s.files ++ [some freshFcb]) s.files.length
                (some (truncateFile freshFcb (roundup_64 m PAGE_SIZE))),
            fcbList := s.fcbList ++ [s.files.length] } } := by
  unfold xfile_fcb_find
  rw [if_neg hm, hcand]
  rfl

/-- xfile_fcb_irele on a descriptor that is not pooled just closes it. -/
theorem irele_unlisted (s : XfsState) (fd0 p l : Nat)
    (h : fd0 ∉ s.fcbList) : xfile_fcb_irele s fd0 p l = setFile s fd0 none := by
  unfold xfile_fcb_irele
  rw [if_pos h]

theorem irele_dead (s : XfsState) (fd0 p l : Nat)
    (h : ¬ fd0 ∉ s.fcbList) (hg : getFile s fd0 = none) :
    xfile_fcb_irele s fd0 p l = s := by
  unfold xfile_fcb_irele
  rw [if_neg h, hg]

theorem irele_to_zero (s : XfsState) (fd0 p l : Nat) (fx : Fcb)
    (h : ¬ fd0 ∉ s.fcbList) (hg : getFile s fd0 = some fx)
    (hz : (fx.refcount + (U32_MOD - 1)) % U32_MOD = 0) :
    xfile_fcb_irele s fd0 p l =
      { files := (setFile s fd0 none).files,
        fcbList := s.fcbList.filter fun x => x ≠ fd0 } := by
  unfold xfile_fcb_irele
  rw [if_neg h, hg]
  simp [hz]

theorem irele_live (s : XfsState) (fd0 p l : Nat) (fx : Fcb)
    (h : ¬ fd0 ∉ s.fcbList) (hg : getFile s fd0 = some fx)
    (hz : ¬ (fx.refcount + (U32_MOD - 1)) % U32_MOD = 0) :
    ∃ g, xfile_fcb_irele s fd0 p l = setFile s fd0 (some g) := by
  unfold xfile_fcb_irele
  rw [if_neg h, hg]
  simp only [hz, if_false]
  by_cases htr : 0 < l ∧ fx.size = p + l
  · rw [if_pos htr]; exact ⟨_, rfl⟩
  · rw [if_neg htr]; exact ⟨_, rfl⟩

/-- One pool operation by another client never touches a descriptor that is
absent from fcb_list: its table entry is untouched, it stays off the list,
and it stays a valid index. -/
theorem runOp_preserves_private (s : XfsState) (op : PoolOp) (fd : Nat)
    (hout : fd ∉ s.fcbList) (hlen : fd < s.files.length)
    (hnot : ∀ xf, op = .destroy xf → xf.fd ≠ fd) :
    getFile (runOp s op) fd = getFile s fd ∧
    fd ∉ (runOp s op).fcbList ∧ fd < (runOp s op).files.length := by
  cases op with
  | create m =>
      by_cases hm : m = 0
      · subst hm
        have hstate : (runOp s (PoolOp.create 0)) =
            { s with files := s.files ++ [some freshFcb] } := by
          show (xfile_create s 0).state = _
          unfold xfile_create
          rw [xfile_fcb_find_zero]
        rw [hstate]
        refine ⟨?_, by simpa using hout, by simp; omega⟩
        simpa [getFile] using listGetD_append_lt s.files (some freshFcb) none fd hlen
      · cases hcand : findListCandidate s with
        | some pair =>
            obtain ⟨fd2, f2⟩ := pair
            have hspec := findListCandidate_spec s fd2 f2 hcand
            have hne : fd ≠ fd2 := fun hh => hout (hh ▸ hspec.1)
            obtain ⟨v, hstate⟩ : ∃ v, runOp s (PoolOp.create m) = setFile s fd2 v :=
              ⟨_, by
                show (xfile_create s m).state = _
                unfold xfile_create
                rw [xfile_fcb_find_cand s m fd2 f2 hm hcand]⟩
            rw [hstate]
            exact ⟨getFile_setFile_ne s fd2 fd v hne,
              by simpa [setFile] using hout, by simp [setFile]; omega⟩
        | none =>
            obtain ⟨v, hstate⟩ : ∃ v, runOp s (PoolOp.create m) =
                { files := (s.files ++ [some freshFcb]).set s.files.length v,
                  fcbList := s.fcbList ++ [s.files.length] } :=
              ⟨_, by
                show (xfile_create s m).state = _
                unfold xfile_create
                rw [xfile_fcb_find_no_cand s m hm hcand]⟩
            rw [hstate]
            refine ⟨?_, ?_, ?_⟩
            · show ((s.files ++ [some freshFcb]).set s.files.length v).getD fd none =
                getFile s fd
              rw [listGetD_set_ne (s.files ++ [some freshFcb]) fd s.files.length v none
                (by omega)]
              exact listGetD_append_lt s.files (some freshFcb) none fd hlen
            · simp
              exact ⟨fun hmem => hout hmem, by omega⟩
            · simp; omega
  | destroy xf =>
      have hne : fd ≠ xf.fd := (hnot xf rfl).symm
      have hrun : runOp s (PoolOp.destroy xf) =
          xfile_fcb_irele s xf.fd xf.partition_pos xf.maxbytes := rfl
      rw [hrun]
      by_cases hmem : xf.fd ∉ s.fcbList
      · rw [irele_unlisted s xf.fd _ _ hmem]
        exact ⟨getFile_setFile_ne s xf.fd fd none hne,
          by simpa [setFile] using hout, by simp [setFile]; omega⟩
      · cases hgx : getFile s xf.fd with
        | none => rw [irele_dead s xf.fd _ _ hmem hgx]; exact ⟨rfl, hout, hlen⟩
        | some fx =>
            by_cases hz : (fx.refcount + (U32_MOD - 1)) % U32_MOD = 0
            · rw [irele_to_zero s xf.fd _ _ fx hmem hgx hz]
              refine ⟨?_, ?_, ?_⟩
              · simpa [getFile, setFile]
                  using listGetD_set_ne s.files fd xf.fd none none hne
              · intro hmf
                exact hout (List.mem_of_mem_filter hmf)
              · simp [setFile]; omega
            · obtain ⟨g, hg⟩ := irele_live s xf.fd _ _ fx hmem hgx hz
              rw [hg]
              exact ⟨getFile_setFile_ne s xf.fd fd _ hne,
                by simpa [setFile] using hout, by simp [setFile]; omega⟩

theorem runOps_preserves_private (ops : List PoolOp) :
    ∀ (s : XfsState) (fd : Nat),
      fd ∉ s.fcbList → fd < s.files.length →
      (∀ xf, PoolOp.destroy xf ∈ ops → xf.fd ≠ fd) →
      getFile (runOps s ops) fd = getFile s fd ∧
      fd ∉ (runOps s ops).fcbList ∧ fd < (runOps s ops).files.length := by
  induction ops with
  | nil => intro s fd hout hlen hnot; exact ⟨rfl, hout, hlen⟩
  | cons op rest ih =>
      intro s fd hout hlen hnot
      have hstep := runOp_preserves_private s op fd hout hlen
        (fun xf hop => hnot xf (by rw [hop]; exact List.mem_cons_self _ _))
      have hrec := ih (runOp s op) fd hstep.2.1 hstep.2.2
        (fun xf hmm => hnot xf (List.mem_cons_of_mem op hmm))
      exact ⟨by rw [show runOps s (op :: rest) = runOps (runOp s op) rest from rfl,
          hrec.1, hstep.1], hrec.2.1, hrec.2.2⟩

/-- C6: creating a partition with max_bytes = 0 opens a brand-new backing
file (a fresh descriptor, refcount 1, empty) that is never put on the pool
list, with the partition starting at offset 0 and covering the whole
(unbounded) file; during its whole lifetime any number of other create and
destroy operations leave its entry untouched (refcount stays 1) and keep it
off the pool list; and no create in a state where the descriptor is off the
pool list can ever return that descriptor, so the file is never shared. -/
theorem c6_unbounded_exclusive :
    ∀ s : XfsState, (∀ x ∈ s.fcbList, x < s.files.length) →
      ((xfile_create s 0).xf.partition_pos = 0 ∧
        (xfile_create s 0).xf.maxbytes = 0 ∧
        (xfile_create s 0).xf.fd = s.files.length ∧
        (xfile_create s 0).state.fcbList = s.fcbList ∧
        (xfile_create s 0).xf.fd ∉ (xfile_create s 0).state.fcbList ∧
        getFile (xfile_create s 0).state (xfile_create s 0).xf.fd =
          some freshFcb) ∧
      (∀ ops : List PoolOp,
        (∀ xf, PoolOp.destroy xf ∈ ops → xf.fd ≠ (xfile_create s 0).xf.fd) →
        getFile (runOps (xfile_create s 0).state ops) (xfile_create s 0).xf.fd =
          some freshFcb ∧
        (xfile_create s 0).xf.fd ∉
          (runOps (xfile_create s 0).state ops).fcbList) ∧
      (∀ (t : XfsState) (m : Nat),
        (xfile_create s 0).xf.fd ∉ t.fcbList →
        (xfile_create s 0).xf.fd < t.files.length →
        (xfile_create t m).xf.fd ≠ (xfile_create s 0).xf.fd) := by
  intro s hwf
  have hfd : (xfile_create s 0).xf.fd = s.files.length := rfl
  have hstate : (xfile_create s 0).state =
      { s with files := s.files ++ [some freshFcb] } := by
    show (xfile_fcb_find s 0).state = _
    rw [xfile_fcb_find_zero]
  have hget : getFile (xfile_create s 0).state (xfile_create s 0).xf.fd =
      some freshFcb := by
    rw [hstate, hfd]
    show (s.files ++ [some freshFcb]).getD s.files.length none = some freshFcb
    exact listGetD_append_self s.files (some freshFcb) none
  have hout : (xfile_create s 0).xf.fd ∉ (xfile_create s 0).state.fcbList := by
    rw [hstate, hfd]
    intro hmm
    exact absurd (hwf _ hmm) (by omega)
  have hlen2 : (xfile_create s 0).xf.fd < (xfile_create s 0).state.files.length := by
    rw [hstate, hfd]
    simp
  refine ⟨⟨rfl, rfl, rfl, by rw [hstate], hout, hget⟩, ?_, ?_⟩
  · intro ops hnot
    have h := runOps_preserves_private ops (xfile_create s 0).state
      (xfile_create s 0).xf.fd hout hlen2 hnot
    exact ⟨by rw [h.1, hget], h.2.1⟩
  · intro t m htout htlen
    by_cases hm : m = 0
    · subst hm
      show (xfile_fcb_find t 0).fd ≠ _
      rw [xfile_fcb_find_zero]
      show t.files.length ≠ _
      omega
    · cases hcand : findListCandidate t with
      | some pair =>
          obtain ⟨fd2, f2⟩ := pair
          have hspec := findListCandidate_spec t fd2 f2 hcand
          show (xfile_fcb_find t m).fd ≠ _
          rw [xfile_fcb_find_cand t m fd2 f2 hm hcand]
          intro hh
          have hh2 : fd2 = (xfile_create s 0).xf.fd := hh
          exact htout (hh2 ▸ hspec.1)
      | none =>
          show (xfile_fcb_find t m).fd ≠ _
          rw [xfile_fcb_find_no_cand t m hm hcand]
          show t.files.length ≠ _
          omega

def c6s : XfsState := (xfile_create emptyPool 4096).state

theorem c6_unbounded_exclusive_witness :
    (∀ x ∈ c6s.fcbList, x < c6s.files.length) ∧
    ((xfile_create c6s 0).xf.partition_pos = 0 ∧
      (xfile_create c6s 0).xf.fd ∉ (xfile_create c6s 0).state.fcbList) ∧
    getFile (runOps (xfile_create c6s 0).state
        [PoolOp.create 8192, PoolOp.create 0])
      (xfile_create c6s 0).xf.fd = some freshFcb :=
  ⟨by decide,
   ⟨(c6_unbounded_exclusive c6s (by decide)).1.1,
    (c6_unbounded_exclusive c6s (by decide)).1.2.2.2.2.1⟩,
   ((c6_unbounded_exclusive c6s (by decide)).2.1
     [PoolOp.create 8192, PoolOp.create 0]
     (by intro xf h; simp at h)).1⟩

/-! ## Claim C9: byte accounting

The specification side: a byte of the file is resident when it lies before
st_size and its page has backing store; the claim says the partition walk
sums exactly the resident bytes inside the partition range.
-/

def isDataByte (f : Fcb) (i : Nat) : Bool :=
  decide (i < f.size) && f.alloc (pageOf i)

/-- Number of resident bytes in [lo, lo + n). -/
def residentLen (f : Fcb) (lo : Nat) : Nat → Nat
  | 0 => 0
  | n + 1 => (if isDataByte f lo then 1 else 0) + residentLen f (lo + 1) n

theorem isDataByte_false_of_size {f : Fcb} {i : Nat} (h : f.size ≤ i) :
    isDataByte f i = false := by
  unfold isDataByte
  rw [decide_eq_false (by omega : ¬ i < f.size)]
  simp

theorem isDataByte_false_of_alloc {f : Fcb} {i : Nat}
    (h : f.alloc (pageOf i) = false) : isDataByte f i = false := by
  unfold isDataByte
  rw [h]
  simp

theorem residentLen_zero_of_none (f : Fcb) :
    ∀ (n lo : Nat), (∀ i, lo ≤ i → i < lo + n → isDataByte f i = false) →
      residentLen f lo n = 0 := by
  intro n
  induction n with
  | zero => intro lo h; rfl
  | succ k ih =>
      intro lo h
      have h0 : isDataByte f lo = false := h lo (le_refl _) (by omega)
      simp only [residentLen, h0, if_false, Bool.false_eq_true]
      rw [ih (lo + 1) (fun i h1 h2 => h i (by omega) (by omega))]

theorem residentLen_all_data (f : Fcb) :
    ∀ (n lo : Nat), (∀ i, lo ≤ i → i < lo + n → isDataByte f i = true) →
      residentLen f lo n = n := by
  intro n
  induction n with
  | zero => intro lo h; rfl
  | succ k ih =>
      intro lo h
      have h0 : isDataByte f lo = true := h lo (le_refl _) (by omega)
      simp only [residentLen, h0, if_true]
      rw [ih (lo + 1) (fun i h1 h2 => h i (by omega) (by omega))]
      omega

theorem residentLen_split (f : Fcb) :
    ∀ (m n lo : Nat),
      residentLen f lo (m + n) = residentLen f lo m + residentLen f (lo + m) n := by
  intro m
  induction m with
  | zero => intro n lo; simp [residentLen]
  | succ k ih =>
      intro n lo
      have he : k + 1 + n = (k + n) + 1 := by omega
      rw [he]
      simp only [residentLen]
      rw [ih n (lo + 1)]
      have he2 : lo + 1 + k = lo + (k + 1) := by omega
      rw [he2]
      omega

/-! Page arithmetic: everything reduces to linear facts about division by
the literal page size. -/

theorem pageOf_mono {a b : Nat} (h : a ≤ b) : pageOf a ≤ pageOf b := by
  simp only [pageOf, PAGE_SIZE]
  omega

theorem pageOf_le_lastPage {f : Fcb} {i : Nat} (h : i < f.size) :
    pageOf i ≤ lastPage f := by
  simp only [pageOf, lastPage, PAGE_SIZE]
  omega

theorem page_mul_lt_size {f : Fcb} {p : Nat} (hp : p ≤ lastPage f)
    (h0 : 0 < f.size) : p * PAGE_SIZE < f.size := by
  simp only [lastPage, PAGE_SIZE] at hp ⊢
  omega

theorem lt_next_page_mul (a : Nat) : a < (pageOf a + 1) * PAGE_SIZE := by
  simp only [pageOf, PAGE_SIZE]
  omega

theorem pageOf_lt_iff {i p : Nat} : pageOf i < p ↔ i < p * PAGE_SIZE := by
  simp only [pageOf, PAGE_SIZE]
  omega

theorem pageOf_page_mul (p : Nat) : pageOf (p * PAGE_SIZE) = p := by
  simp only [pageOf, PAGE_SIZE]
  omega

theorem findPageAux_none_all (pred : Nat → Bool) :
    ∀ (n start : Nat), findPageAux pred start n = none →
      ∀ p, start ≤ p → p < start + n → pred p = false := by
  intro n
  induction n with
  | zero => intro start h p h1 h2; omega
  | succ k ih =>
      intro start h p h1 h2
      simp only [findPageAux] at h
      cases hps : pred start with
      | true => rw [hps] at h; simp at h
      | false =>
          rw [hps] at h
          simp at h
          rcases Nat.eq_or_lt_of_le h1 with heq | hlt
          · rw [← heq]; exact hps
          · exact ih (start + 1) h p (by omega) (by omega)

theorem findPageAux_some_spec (pred : Nat → Bool) :
    ∀ (n start p : Nat), findPageAux pred start n = some p →
      start ≤ p ∧ p < start + n ∧ pred p = true ∧
      ∀ q, start ≤ q → q < p → pred q = false := by
  intro n
  induction n with
  | zero => intro start p h; simp [findPageAux] at h
  | succ k ih =>
      intro start p h
      simp only [findPageAux] at h
      cases hps : pred start with
      | true =>
          rw [hps] at h
          simp at h
          subst h
          exact ⟨le_refl _, by omega, hps, fun q hq1 hq2 => absurd hq1 (by omega)⟩
      | false =>
          rw [hps] at h
          simp at h
          obtain ⟨h1, h2, h3, h4⟩ := ih (start + 1) p h
          refine ⟨by omega, by omega, h3, fun q hq1 hq2 => ?_⟩
          rcases Nat.eq_or_lt_of_le hq1 with heq | hlt
          · rw [← heq]; exact hps
          · exact h4 q (by omega) hq2

theorem lseekData_none (f : Fcb) (a : Nat) (h : lseekData f a = none) :
    ∀ i, a ≤ i → isDataByte f i = false := by
  intro i hai
  unfold lseekData at h
  by_cases hs : f.size ≤ a
  · exact isDataByte_false_of_size (by omega)
  · rw [if_neg hs] at h
    by_cases ha : f.alloc (pageOf a) = true
    · rw [if_pos ha] at h; exact absurd h (by simp)
    · rw [if_neg ha] at h
      cases hfind : findPageAux f.alloc (pageOf a + 1) (lastPage f - pageOf a) with
      | some p => rw [hfind] at h; simp at h
      | none =>
          by_cases hiz : i < f.size
          · have hfa : f.alloc (pageOf i) = false := by
              by_cases hpi : pageOf i = pageOf a
              · rw [hpi]; simpa using ha
              · have hla := pageOf_le_lastPage (show a < f.size by omega)
                have hli := pageOf_le_lastPage hiz
                have hmono := pageOf_mono hai
                exact findPageAux_none_all f.alloc _ _ hfind (pageOf i)
                  (by omega) (by omega)
            exact isDataByte_false_of_alloc hfa
          · exact isDataByte_false_of_size (by omega)

theorem lseekData_some (f : Fcb) (a d : Nat) (h : lseekData f a = some d) :
    a ≤ d ∧ d < f.size ∧ f.alloc (pageOf d) = true ∧
    ∀ i, a ≤ i → i < d → isDataByte f i = false := by
  unfold lseekData at h
  by_cases hs : f.size ≤ a
  · rw [if_pos hs] at h; exact absurd h (by simp)
  · rw [if_neg hs] at h
    by_cases ha : f.alloc (pageOf a) = true
    · rw [if_pos ha] at h
      simp at h
      subst h
      exact ⟨le_refl _, by omega, ha, fun i h1 h2 => absurd h1 (by omega)⟩
    · rw [if_neg ha] at h
      cases hfind : findPageAux f.alloc (pageOf a + 1) (lastPage f - pageOf a) with
      | none => rw [hfind] at h; simp at h
      | some p =>
          rw [hfind] at h
          simp at h
          subst h
          obtain ⟨hp1, hp2, hp3, hp4⟩ := findPageAux_some_spec f.alloc _ _ p hfind
          have hla := pageOf_le_lastPage (show a < f.size by omega)
          have hple : p ≤ lastPage f := by omega
          have hsz : 0 < f.size := by omega
          refine ⟨?_, page_mul_lt_size hple hsz, by rw [pageOf_page_mul]; exact hp3, ?_⟩
          · have h1 := lt_next_page_mul a
            have h2 : (pageOf a + 1) * PAGE_SIZE ≤ p * PAGE_SIZE :=
              Nat.mul_le_mul_right _ hp1
            omega
          · intro i hi1 hi2
            by_cases hiz : i < f.size
            · by_cases hpi : pageOf i = pageOf a
              · exact isDataByte_false_of_alloc (by rw [hpi]; simpa using ha)
              · have hmono := pageOf_mono hi1
                have hhi : pageOf i < p := pageOf_lt_iff.mpr hi2
                exact isDataByte_false_of_alloc (hp4 (pageOf i) (by omega) hhi)
            · exact isDataByte_false_of_size (by omega)

theorem lseekHole_from_data (f : Fcb) (d : Nat) (hd : d < f.size)
    (ha : f.alloc (pageOf d) = true) :
    ∃ h, lseekHole f d = some h ∧ d < h ∧ h ≤ f.size ∧
      ∀ i, d ≤ i → i < h → isDataByte f i = true := by
  unfold lseekHole
  rw [if_neg (by omega), if_neg (by simp [ha])]
  have hla := pageOf_le_lastPage hd
  cases hfind : findPageAux (fun p => !f.alloc p) (pageOf d + 1) (lastPage f - pageOf d) with
  | some p =>
      obtain ⟨hp1, hp2, hp3, hp4⟩ := findPageAux_some_spec _ _ _ p hfind
      have hple : p ≤ lastPage f := by omega
      have hpsz := page_mul_lt_size hple (by omega)
      refine ⟨p * PAGE_SIZE, rfl, ?_, by omega, ?_⟩
      · have h1 := lt_next_page_mul d
        have h2 : (pageOf d + 1) * PAGE_SIZE ≤ p * PAGE_SIZE :=
          Nat.mul_le_mul_right _ hp1
        omega
      · intro i hi1 hi2
        have hiz : i < f.size := by omega
        have hpa : f.alloc (pageOf i) = true := by
          by_cases hpi : pageOf i = pageOf d
          · rw [hpi]; exact ha
          · have hmono := pageOf_mono hi1
            have hhi : pageOf i < p := pageOf_lt_iff.mpr hi2
            have := hp4 (pageOf i) (by omega) hhi
            simpa using this
        simp [isDataByte, hpa, hiz]
  | none =>
      refine ⟨f.size, rfl, by omega, le_refl _, ?_⟩
      intro i hi1 hi2
      have hpa : f.alloc (pageOf i) = true := by
        by_cases hpi : pageOf i = pageOf d
        · rw [hpi]; exact ha
        · have hmono := pageOf_mono hi1
          have hli := pageOf_le_lastPage hi2
          have := findPageAux_none_all _ _ _ hfind (pageOf i) (by omega) (by omega)
          simpa using this
      simp [isDataByte, hpa, hi2]

/-- The data/hole walk started at any offset a with enough fuel counts
exactly the resident bytes of [a, stop). -/
theorem partitionBytesGo_correct (f : Fcb) (stop : Nat) :
    ∀ (fuel a acc : Nat), stop ≤ a + fuel →
      partitionBytesGo f stop fuel (lseekData f a) acc =
        acc + residentLen f a (stop - a) := by
  intro fuel
  induction fuel with
  | zero =>
      intro a acc hfuel
      have hstop : stop - a = 0 := by omega
      rw [hstop]
      cases lseekData f a <;> rfl
  | succ k ih =>
      intro a acc hfuel
      cases hda : lseekData f a with
      | none =>
          rw [residentLen_zero_of_none f (stop - a) a
            (fun i h1 h2 => lseekData_none f a hda i h1)]
          rfl
      | some d =>
          obtain ⟨had, hds, hal, hnone⟩ := lseekData_some f a d hda
          by_cases hdstop : d < stop
          · obtain ⟨h, hh, hdh, hhs, hdata⟩ := lseekHole_from_data f d hds hal
            have hstep : partitionBytesGo f stop (k + 1) (some d) acc =
                if stop ≤ h then acc + (stop - d)
                else partitionBytesGo f stop k (lseekData f h) (acc + (h - d)) := by
              simp only [partitionBytesGo]
              rw [if_pos hdstop, hh]
            rw [hstep]
            by_cases hhstop : stop ≤ h
            · rw [if_pos hhstop]
              have hsplit : stop - a = (d - a) + (stop - d) := by omega
              rw [hsplit, residentLen_split f (d - a) (stop - d) a]
              rw [residentLen_zero_of_none f (d - a) a
                (fun i h1 h2 => hnone i h1 (by omega))]
              have ha2 : a + (d - a) = d := by omega
              rw [ha2]
              rw [residentLen_all_data f (stop - d) d
                (fun i h1 h2 => hdata i h1 (by omega))]
              omega
            · rw [if_neg hhstop]
              rw [ih h (acc + (h - d)) (by omega)]
              have hsplit : stop - a = (d - a) + ((h - d) + (stop - h)) := by omega
              rw [hsplit, residentLen_split f (d - a) _ a]
              rw [residentLen_zero_of_none f (d - a) a
                (fun i h1 h2 => hnone i h1 (by omega))]
              have ha2 : a + (d - a) = d := by omega
              rw [ha2, residentLen_split f (h - d) (stop - h) d]
              have hd2 : d + (h - d) = h := by omega
              rw [hd2]
              rw [residentLen_all_data f (h - d) d
                (fun i h1 h2 => hdata i h1 (by omega))]
              omega
          · have hskip : partitionBytesGo f stop (k + 1) (some d) acc = acc := by
              simp only [partitionBytesGo]
              rw [if_neg hdstop]
            rw [hskip,
              residentLen_zero_of_none f (stop - a) a
                (fun i h1 h2 => hnone i h1 (by omega))]
            omega

/-- C9: for a bounded partition, the walk of xfile_partition_bytes returns
exactly the number of resident (data) bytes of the backing file inside the
partition range; for an unbounded partition, xfile_bytes reports the
st_blocks allocation count converted to bytes, which equals resident pages
times the page size; and on a fresh unbounded partition a successful store
of buf at position 0 makes xfile_bytes report exactly the pages covering
buf — nonzero, and driven by the residency map rather than the logical
size. -/
theorem c9_bytes_used :
    (∀ (s : XfsState) (xf : Xfile) (f : Fcb),
      getFile s xf.fd = some f → 0 < xf.maxbytes →
      xfile_partition_bytes s xf = residentLen f xf.partition_pos xf.maxbytes) ∧
    (∀ (s : XfsState) (xf : Xfile) (f : Fcb),
      getFile s xf.fd = some f → xf.maxbytes = 0 →
      xfile_bytes s xf = countAllocPages f * PAGE_SIZE) ∧
    (∀ (s s2 : XfsState) (buf : List Nat),
      0 < buf.length →
      xfile_store (xfile_create s 0).state (xfile_create s 0).xf buf 0 = .ok s2 →
      xfile_bytes s2 (xfile_create s 0).xf =
        ((buf.length + PAGE_SIZE - 1) / PAGE_SIZE) * PAGE_SIZE ∧
      0 < xfile_bytes s2 (xfile_create s 0).xf) := by
  refine ⟨?_, ?_, ?_⟩
  · intro s xf f hget hb
    unfold xfile_partition_bytes
    rw [hget]
    show partitionBytesGo f (xf.partition_pos + xf.maxbytes)
        ((xf.partition_pos + xf.maxbytes) + 1)
        (lseekData f xf.partition_pos) 0 =
      residentLen f xf.partition_pos xf.maxbytes
    rw [partitionBytesGo_correct f (xf.partition_pos + xf.maxbytes)
      ((xf.partition_pos + xf.maxbytes) + 1) xf.partition_pos 0 (by omega)]
    have he : xf.partition_pos + xf.maxbytes - xf.partition_pos = xf.maxbytes := by
      omega
    rw [he]
    omega
  · intro s xf f hget hz
    unfold xfile_bytes
    rw [if_neg (by omega), hget]
    show st_blocks f <<< 9 = countAllocPages f * PAGE_SIZE
    simp only [st_blocks, Nat.shiftLeft_eq, PAGE_SIZE]
    omega
  · intro s s2 buf hlen hstore
    have hxf : (xfile_create s 0).xf =
        { fd := s.files.length, partition_pos := 0, maxbytes := 0 } := rfl
    have hstate : (xfile_create s 0).state =
        { s with files := s.files ++ [some freshFcb] } := by
      show (xfile_fcb_find s 0).state = _
      rw [xfile_fcb_find_zero]
    have hget : getFile (xfile_create s 0).state (xfile_create s 0).xf.fd =
        some freshFcb := by
      rw [hstate, hxf]
      show (s.files ++ [some freshFcb]).getD s.files.length none = some freshFcb
      exact listGetD_append_self s.files (some freshFcb) none
    unfold xfile_store at hstore
    by_cases h1 : buf.length > INT_MAX
    · rw [if_pos h1] at hstore; exact absurd hstore (by simp)
    rw [if_neg h1] at hstore
    by_cases h2 : capacityCheckFails (xfile_create s 0).xf buf.length 0 = true
    · rw [if_pos h2] at hstore; exact absurd hstore (by simp)
    rw [if_neg h2, hget] at hstore
    simp only [Except.ok.injEq] at hstore
    set W : Fcb := writeBytes freshFcb (0 + (xfile_create s 0).xf.partition_pos) buf
      with hW
    have hlen2 : (xfile_create s 0).xf.fd < (xfile_create s 0).state.files.length := by
      rw [hstate, hxf]
      simp
    have hget2 : getFile s2 (xfile_create s 0).xf.fd = some W := by
      rw [← hstore]
      exact getFile_setFile_self _ _ _ hlen2
    have hbne : ¬ buf.length = 0 := by omega
    have hWsize : W.size = buf.length := by
      rw [hW, hxf]
      simp [writeBytes, hbne, freshFcb]
    have hWalloc : ∀ p, W.alloc p = decide (p * PAGE_SIZE < buf.length) := by
      intro p
      rw [hW, hxf]
      simp only [writeBytes, freshFcb]
      rw [if_neg hbne]
      simp only [Bool.false_or]
      simp only [PAGE_SIZE]
      rcases Nat.lt_or_ge (p * 4096) buf.length with hc | hc
      · rw [decide_eq_true (by omega), decide_eq_true (by omega)]
      · rw [decide_eq_false (by omega), decide_eq_false (by omega)]
    have hcount : countAllocPages W = (buf.length + PAGE_SIZE - 1) / PAGE_SIZE := by
      unfold countAllocPages
      rw [hWsize]
      have hall : ∀ p ∈ List.range ((buf.length + PAGE_SIZE - 1) / PAGE_SIZE),
          W.alloc p = true := by
        intro p hp
        rw [List.mem_range] at hp
        rw [hWalloc p]
        apply decide_eq_true
        simp only [PAGE_SIZE] at hp ⊢
        omega
      calc (List.range ((buf.length + PAGE_SIZE - 1) / PAGE_SIZE)).countP W.alloc
          = (List.range ((buf.length + PAGE_SIZE - 1) / PAGE_SIZE)).length :=
            List.countP_eq_length.mpr hall
        _ = (buf.length + PAGE_SIZE - 1) / PAGE_SIZE := List.length_range _
    have hbytes : xfile_bytes s2 (xfile_create s 0).xf =
        countAllocPages W * PAGE_SIZE := by
      unfold xfile_bytes
      rw [if_neg (by simp [hxf]), hget2]
      show st_blocks W <<< 9 = countAllocPages W * PAGE_SIZE
      simp only [st_blocks, Nat.shiftLeft_eq, PAGE_SIZE]
      omega
    rw [hbytes, hcount]
    constructor
    · rfl
    · simp only [PAGE_SIZE]
      omega

def c9f : Fcb :=
  { size := 12288, data := fun _ => 1,
    alloc := fun p => decide (p = 0 ∨ p = 2), refcount := 1 }

def c9s : XfsState := { files := [some c9f], fcbList := [0] }

def c9xfB : Xfile := { fd := 0, partition_pos := 0, maxbytes := 8192 }

def c9xfU : Xfile := { fd := 0, partition_pos := 0, maxbytes := 0 }

theorem c9_bytes_used_witness :
    (getFile c9s c9xfB.fd = some c9f ∧ 0 < c9xfB.maxbytes ∧
      xfile_partition_bytes c9s c9xfB =
        residentLen c9f c9xfB.partition_pos c9xfB.maxbytes) ∧
    (xfile_bytes c9s c9xfU = countAllocPages c9f * PAGE_SIZE) ∧
    (∃ s2, xfile_store (xfile_create emptyPool 0).state
        (xfile_create emptyPool 0).xf (List.replicate 50 7) 0 = .ok s2 ∧
      xfile_bytes s2 (xfile_create emptyPool 0).xf =
        ((50 + PAGE_SIZE - 1) / PAGE_SIZE) * PAGE_SIZE) :=
  ⟨⟨rfl, by decide, c9_bytes_used.1 c9s c9xfB c9f rfl (by decide)⟩,
   c9_bytes_used.2.1 c9s c9xfU c9f rfl rfl,
   ⟨_, rfl, by
     have h := (c9_bytes_used.2.2 emptyPool _ (List.replicate 50 7)
       (by simp) rfl).1
     simpa using h⟩⟩

end XfsProgsModel
